import Mathlib

/-!
Verification development for the sdnctrlsim link-balancer simulator
(ctrlsim.py).  The Python source is shallowly embedded: the networkx
directed graph becomes an association list from directed edges to
attribute records, Python floats become rationals (with the final
square roots of the RMSE metrics taken in the reals), and Python
exceptions (KeyError, ValueError, AssertionError, NotImplementedError)
become the error case of an Except value.  Debug prints are modelled as
no-ops.  The bare statement named next inside the oversubscription
branch of LinkBalancerCtrl.handle_request is a no-op in Python 2 (it
merely evaluates the builtin), so the embedding keeps scanning the
remaining links of the same path and only skips appending the metric,
exactly as the interpreter would.
-/

namespace CtrlSim

/-- Node identifiers are the networkx node names (strings). -/
abbrev Node := String

/-- Attribute record of a directed edge: capacity and used, as set up by
the topology construction and mutated by the ledger. -/
structure EdgeAttrs where
  capacity : ℚ
  used : ℚ
deriving DecidableEq, Repr

/-- The directed graph: an association list from (src, dst) to edge
attributes, mirroring the networkx adjacency structure of ctrlsim.py.
All concrete topologies in the repository have pairwise distinct edge
keys, as a networkx DiGraph enforces. -/
abbrev Graph := List ((Node × Node) × EdgeAttrs)

/-- A flow recorded in the ledger: the path and the resources amount,
as appended by LinkBalancerSim.allocate_resources. -/
abbrev Flow := List Node × ℚ

/-- The ledger self.active_flows: an association list from expiry
timestep to the list of flows ending at that timestep. -/
abbrev Ledger := List (ℤ × List Flow)

/-- The mutable state of a LinkBalancerSim: the shared graph and the
active flow ledger. -/
structure SimState where
  graph : Graph
  active_flows : Ledger
deriving DecidableEq, Repr

/-- Lookup self.graph[u][v]: the attributes of the first entry with the
given key, none when the edge is absent (a KeyError in Python). -/
def findEdge : Graph → Node → Node → Option EdgeAttrs
  | [], _, _ => none
  | ent :: rest, u, v => if ent.1 = (u, v) then some ent.2 else findEdge rest u v

/-- Add d to the used attribute of the edge with key k.  A networkx
graph holds one entry per key; mapping over all matching entries agrees
with that on every graph with distinct keys. -/
def updateEdge (g : Graph) (k : Node × Node) (d : ℚ) : Graph :=
  g.map (fun ent => if ent.1 = k then (ent.1, ⟨ent.2.capacity, ent.2.used + d⟩) else ent)

/-- Add d to the used attribute of every link in the list, in order:
the mutation loop of allocate_resources, and (with d negative) the
subtraction loop of free_resources. -/
def addOnLinks (g : Graph) (d : ℚ) (lnks : List (Node × Node)) : Graph :=
  lnks.foldl (fun gg l => updateEdge gg l d) g

/-- zip(path[:-1], path[1:]): the consecutive link pairs of a path. -/
def links (path : List Node) : List (Node × Node) :=
  path.zip path.tail

/-- Message of the Python KeyError raised on a missing edge or switch. -/
def keyErrorMsg : String := "KeyError"

/-- Message of the Python ValueError raised by max on an empty list. -/
def valueErrorMsg : String := "ValueError: max arg is an empty sequence"

/-- Message of the NotImplementedError raised by rmse_servers. -/
def notImplementedMsg : String := "NotImplementedError: Single server links only"

/-- Message of a failed assert statement in LinkBalancerSim.run. -/
def assertionErrorMsg : String := "AssertionError"

/-- The first loop of allocate_resources: walk the links in order; a
missing edge is a KeyError; stop with false at the first link whose
used plus resources exceeds capacity (the early return); true when
every link fits. -/
def checkLinks (g : Graph) (r : ℚ) : List (Node × Node) → Except String Bool
  | [] => Except.ok true
  | l :: rest =>
    match findEdge g l.1 l.2 with
    | none => Except.error keyErrorMsg
    | some ed =>
      if ed.used + r > ed.capacity then Except.ok false
      else checkLinks g r rest

/-- setdefault(whenfree, []).append((path, resources)): append the flow
to the bucket of the given timestep, creating the bucket at the end of
the dict when the key is new. -/
def bucketAppend (L : Ledger) (t : ℤ) (fl : Flow) : Ledger :=
  match L with
  | [] => [(t, [fl])]
  | b :: rest => if b.1 = t then (b.1, b.2 ++ [fl]) :: rest else b :: bucketAppend rest t fl

/-- self.active_flows[timestep] when the key is present. -/
def lookupBucket : Ledger → ℤ → Option (List Flow)
  | [], _ => none
  | b :: rest, t => if b.1 = t then some b.2 else lookupBucket rest t

/-- self.active_flows.pop(timestep): drop the bucket with the key. -/
def removeBucket : Ledger → ℤ → Ledger
  | [], _ => []
  | b :: rest, t => if b.1 = t then rest else b :: removeBucket rest t

/-- LinkBalancerSim.allocate_resources: an empty path returns at once;
otherwise verify every link with the first loop, return the unchanged
state when some link would be oversubscribed, and otherwise add the
resources on every link and record the flow under its expiry. -/
def allocate_resources (st : SimState) (path : List Node) (resources : ℚ) (whenfree : ℤ) :
    Except String SimState :=
  if path.isEmpty then Except.ok st
  else
    match checkLinks st.graph resources (links path) with
    | Except.error e => Except.error e
    | Except.ok false => Except.ok st
    | Except.ok true =>
      Except.ok
        { graph := addOnLinks st.graph resources (links path)
          active_flows := bucketAppend st.active_flows whenfree (path, resources) }

/-- LinkBalancerSim.free_resources: when a bucket exists for the
timestep, subtract each recorded flow along its path and pop the
bucket; otherwise do nothing.  The subtraction updates edges that are
present and is total here: every recorded flow passed the edge lookups
of allocate_resources and edges are never removed, so the KeyError of
a missing edge cannot occur on recorded flows. -/
def free_resources (st : SimState) (t : ℤ) : SimState :=
  match lookupBucket st.active_flows t with
  | none => st
  | some flows =>
    { graph := flows.foldl (fun gg fl => addOnLinks gg (-fl.2) (links fl.1)) st.graph
      active_flows := removeBucket st.active_flows t }

/-- Python max over a nonempty list (a left fold), none on the empty
list where max raises ValueError. -/
def listMax : List ℚ → Option ℚ
  | [] => none
  | x :: xs => some (xs.foldl max x)

/-- A LinkBalancerCtrl: the switch names it governs and the servers it
may dispatch to. -/
structure LinkBalancerCtrl where
  switches : List Node
  servers : List Node

/-- The inner loop of handle_request over the links of one candidate
path: a link is skipped unless one endpoint is among the switches of
the controller; a considered link with metric above 1 only skips the
append (the bare next statement is a no-op in Python 2); otherwise the
metric joins the list. -/
def linkMetrics (switches : List Node) (g : Graph) (util : ℚ) :
    List (Node × Node) → Except String (List ℚ)
  | [] => Except.ok []
  | l :: rest =>
    if l.2 ∈ switches ∨ l.1 ∈ switches then
      match findEdge g l.1 l.2 with
      | none => Except.error keyErrorMsg
      | some ed =>
        let m := (ed.used + util) / ed.capacity
        if m > 1 then linkMetrics switches g util rest
        else Except.map (fun ms => m :: ms) (linkMetrics switches g util rest)
    else linkMetrics switches g util rest

/-- The outer loop of handle_request over the candidate paths, with the
accumulator bestpath and bestpathmetric: the path metric is the max of
the link metric list (ValueError when that list is empty), and a path
wins only with a strictly smaller metric. -/
def hrGo (switches : List Node) (g : Graph) (util : ℚ) :
    List (List Node) → Option (List Node) → ℚ → Except String (Option (List Node))
  | [], best, _ => Except.ok best
  | p :: rest, best, bm =>
    match linkMetrics switches g util (links p) with
    | Except.error e => Except.error e
    | Except.ok lm =>
      match listMax lm with
      | none => Except.error valueErrorMsg
      | some pm =>
        if pm < bm then hrGo switches g util rest (some p) pm
        else hrGo switches g util rest best bm

/-- The candidate path enumeration of handle_request: one shortest path
per server of the controller, toward the entry switch.  The shortest
path primitive of the external graph library is the parameter sp;
servers for which it yields no path contribute no candidate. -/
def candidate_paths (sp : Node → Node → Option (List Node)) (ctrl : LinkBalancerCtrl)
    (sw : Node) : List (List Node) :=
  ctrl.servers.filterMap (fun s => sp s sw)

/-- LinkBalancerCtrl.handle_request: enumerate the candidate paths and
pick the one minimizing the maximum considered link utilization,
starting from the acceptance threshold 1. -/
def handle_request (sp : Node → Node → Option (List Node)) (ctrl : LinkBalancerCtrl)
    (g : Graph) (sw : Node) (util : ℚ) : Except String (Option (List Node)) :=
  hrGo ctrl.switches g util (candidate_paths sp ctrl sw) none 1

/-- The shared metric core of rmse_links and rmse_servers: given the
collected (capacity, used) pairs, total both components, and sum the
squared absolute deviations of used from the proportional ideal. -/
def sumSqDev (pairs : List (ℚ × ℚ)) : ℚ :=
  let cap_total := (pairs.map Prod.fst).sum
  let used_total := (pairs.map Prod.snd).sum
  (pairs.map (fun pr => |pr.2 - used_total / cap_total * pr.1| ^ 2)).sum

/-- The (capacity, used) pairs of all edges, in graph order, as the
first loop of rmse_links collects them. -/
def graphPairs (g : Graph) : List (ℚ × ℚ) :=
  g.map (fun ent => (ent.2.capacity, ent.2.used))

/-- LinkBalancerSim.rmse_links: square root of the summed squared
deviations over all edges. -/
noncomputable def rmse_links (g : Graph) : ℝ :=
  Real.sqrt ((sumSqDev (graphPairs g) : ℚ) : ℝ)

/-- graph.neighbors(s) on a networkx DiGraph: the successor nodes, in
edge order. -/
def outNeighbors (g : Graph) (s : Node) : List Node :=
  g.filterMap (fun ent => if ent.1.1 = s then some ent.1.2 else none)

/-- The first loop of rmse_servers: for each server in order, demand
exactly one out-neighbor (NotImplementedError otherwise) and collect
the (capacity, used) pair of the edge toward it. -/
def serverPairs (g : Graph) : List Node → Except String (List (ℚ × ℚ))
  | [] => Except.ok []
  | s :: rest =>
    match outNeighbors g s with
    | [d] =>
      match findEdge g s d with
      | none => Except.error keyErrorMsg
      | some ed => Except.map (fun ps => (ed.capacity, ed.used) :: ps) (serverPairs g rest)
    | _ => Except.error notImplementedMsg

/-- LinkBalancerSim.rmse_servers: the same metric core over the server
outgoing links only, with the single-neighbor precondition enforced by
an exception. -/
noncomputable def rmse_servers (servers : List Node) (g : Graph) : Except String ℝ :=
  Except.map (fun ps => Real.sqrt ((sumSqDev ps : ℚ) : ℝ)) (serverPairs g servers)

/-- A demand of the workload: entry switch, size, duration. -/
abbrev Req := Node × ℚ × ℤ

/-- The fixed configuration of a simulation run: the external shortest
path provider, the switch-to-controller map built at construction, and
the server nodes of the topology (the arguments rmse_servers reads from
self). -/
structure SimConf where
  sp : Node → Node → Option (List Node)
  swToCtrl : Node → Option LinkBalancerCtrl
  servers : List Node

/-- One demand of the run loop body: assert the positive duration, look
up the owning controller (KeyError when the switch is unknown), ask it
for a path, and allocate the size along that path with expiry
duration + i; a none path makes allocate_resources return at once. -/
def handle_demand (conf : SimConf) (st : SimState) (i : ℤ) (req : Req) :
    Except String SimState :=
  if req.2.2 ≤ 0 then Except.error assertionErrorMsg
  else
    match conf.swToCtrl req.1 with
    | none => Except.error keyErrorMsg
    | some ctrl =>
      match handle_request conf.sp ctrl st.graph req.1 req.2.1 with
      | Except.error e => Except.error e
      | Except.ok none => Except.ok st
      | Except.ok (some p) => allocate_resources st p req.2.1 (req.2.2 + i)

/-- The inner request loop of one timestep, in list order. -/
def handle_reqs (conf : SimConf) (i : ℤ) : SimState → List Req → Except String SimState
  | st, [] => Except.ok st
  | st, r :: rest =>
    match handle_demand conf st i r with
    | Except.error e => Except.error e
    | Except.ok st1 => handle_reqs conf i st1 rest

/-- One timestep of LinkBalancerSim.run: free the flows expiring now,
then handle the demands of this timestep in order. -/
def sim_step (conf : SimConf) (st : SimState) (i : ℤ) (reqs : List Req) :
    Except String SimState :=
  handle_reqs conf i (free_resources st i) reqs

/-- The state evolution of the run loop across the leading timesteps of
a workload, starting at step index i. -/
def steps (conf : SimConf) (i : ℤ) (st : SimState) : List (List Req) → Except String SimState
  | [] => Except.ok st
  | reqs :: rest =>
    match sim_step conf st i reqs with
    | Except.error e => Except.error e
    | Except.ok st1 => steps conf (i + 1) st1 rest

/-- LinkBalancerSim.run from step index i: per timestep, advance the
state with sim_step, then evaluate rmse_links and rmse_servers on the
updated graph and append both values; an exception anywhere aborts the
run. -/
noncomputable def run_from (conf : SimConf) (i : ℤ) (st : SimState) :
    List (List Req) → Except String (List ℝ × List ℝ)
  | [] => Except.ok ([], [])
  | reqs :: rest =>
    match sim_step conf st i reqs with
    | Except.error e => Except.error e
    | Except.ok st1 =>
      match rmse_servers conf.servers st1.graph with
      | Except.error e => Except.error e
      | Except.ok v2 =>
        match run_from conf (i + 1) st1 rest with
        | Except.error e => Except.error e
        | Except.ok (l1, l2) => Except.ok (rmse_links st1.graph :: l1, v2 :: l2)

/-- LinkBalancerSim.run: the loop starts at timestep 0 and returns the
two metric value sequences, keyed in the source by the metric function
names rmse_links and rmse_servers. -/
noncomputable def run (conf : SimConf) (st : SimState) (workload : List (List Req)) :
    Except String (List ℝ × List ℝ) :=
  run_from conf 0 st workload

/-- The number of occurrences of the key k in a link list. -/
def keyCount (k : Node × Node) : List (Node × Node) → ℕ
  | [] => 0
  | l :: rest => keyCount k rest + (if k = l then 1 else 0)

/-- The contribution of one recorded flow to the used value of the edge
with key k: its resources times the number of traversals of that edge
by its path. -/
def flowLoad (k : Node × Node) (fl : Flow) : ℚ :=
  fl.2 * (keyCount k (links fl.1) : ℚ)

/-- The total contribution of the flows of one ledger bucket to the
edge with key k. -/
def bucketLoad (B : List Flow) (k : Node × Node) : ℚ :=
  (B.map (flowLoad k)).sum

/-- The total contribution of every flow recorded in the ledger to the
edge with key k. -/
def ledgerLoad (L : Ledger) (k : Node × Node) : ℚ :=
  (L.map (fun b => bucketLoad b.2 k)).sum

/-- The well-formedness invariant the run loop maintains: pairwise
distinct edge keys, every edge between 0 and capacity with its used
value covering the total recorded load, and only nonnegative flow
amounts in the ledger. -/
def Inv (st : SimState) : Prop :=
  (st.graph.map Prod.fst).Nodup ∧
  (∀ ent ∈ st.graph, 0 ≤ ent.2.used ∧ ent.2.used ≤ ent.2.capacity ∧
      ledgerLoad st.active_flows ent.1 ≤ ent.2.used) ∧
  (∀ b ∈ st.active_flows, ∀ fl ∈ b.2, 0 ≤ fl.2)

/-- The rmse_links quantity exactly as the specification words it: with
cap and used totalled over all edges, the square root of the sum over
all edges of the squared difference between used and the proportional
ideal share of the capacity. -/
noncomputable def rmse_links_spec (g : Graph) : ℝ :=
  Real.sqrt (((g.map (fun ent =>
      (ent.2.used -
        (g.map (fun e2 => e2.2.used)).sum / (g.map (fun e2 => e2.2.capacity)).sum
          * ent.2.capacity) ^ 2)).sum : ℚ))

/-- The (capacity, used) pair of the edge from a server to its single
out-neighbor, for stating what rmse_servers computes when its
precondition holds. -/
def serverEdgeData (g : Graph) (s : Node) : ℚ × ℚ :=
  match findEdge g s ((outNeighbors g s).headD s) with
  | some ed => (ed.capacity, ed.used)
  | none => (0, 0)

/-! Node name constants for the concrete scenarios, matching the test
topologies of ctrlsim.py. -/

def nS1 : Node := "s1"

def nS2 : Node := "s2"

def nSw1 : Node := "sw1"

def nSw2 : Node := "sw2"

def nSwX : Node := "swx"

def nA : Node := "a"

def nB : Node := "b"

/-- Graph of the oversubscription scenario: the candidate path from s1
to sw2 has a fully used first link and an idle second link. -/
def c1g : Graph :=
  [((nS1, nSw1), ⟨100, 100⟩), ((nSw1, nSw2), ⟨100, 0⟩), ((nS2, nSw2), ⟨100, 40⟩)]

/-- Shortest paths of the oversubscription scenario. -/
def c1sp : Node → Node → Option (List Node) := fun a b =>
  if a = nS1 ∧ b = nSw2 then some [nS1, nSw1, nSw2]
  else if a = nS2 ∧ b = nSw2 then some [nS2, nSw2]
  else none

/-- Controller of the oversubscription scenario: it governs both
switches and knows both servers. -/
def c1ctrl : LinkBalancerCtrl := ⟨[nSw1, nSw2], [nS1, nS2]⟩

/-- Initial state of the one-edge, one-demand invariant scenario. -/
def c2st : SimState := ⟨[((nS1, nSw1), ⟨100, 0⟩)], []⟩

/-- Shortest paths of the invariant scenario. -/
def c2sp : Node → Node → Option (List Node) := fun a b =>
  if a = nS1 ∧ b = nSw1 then some [nS1, nSw1] else none

/-- Controller of the invariant scenario. -/
def c2ctrl : LinkBalancerCtrl := ⟨[nSw1], [nS1]⟩

/-- Configuration of the invariant scenario. -/
def c2conf : SimConf := ⟨c2sp, fun sw => if sw = nSw1 then some c2ctrl else none, [nS1]⟩

/-- One-timestep workload of the invariant scenario. -/
def c2wl : List (List Req) := [[(nSw1, 10, 1)]]

/-- State after the single timestep of the invariant scenario. -/
def c2st1 : SimState := ⟨[((nS1, nSw1), ⟨100, 10⟩)], [(1, [([nS1, nSw1], 10)])]⟩

/-- Single-edge state whose ledger already holds a bucket at expiry 5:
its recorded 5-unit flow accounts for the 5 units in use. -/
def c3dst : SimState := ⟨[((nA, nB), ⟨100, 5⟩)], [(5, [([nA, nB], 5)])]⟩

/-- The same state after allocating 40 more units on the only edge with
the same expiry 5: the new flow joins the existing bucket. -/
def c3dmid : SimState :=
  ⟨[((nA, nB), ⟨100, 45⟩)], [(5, [([nA, nB], 5), ([nA, nB], 40)])]⟩

/-- Two-edge state with one unrelated ledger bucket, for the round-trip
scenario. -/
def c3wst : SimState :=
  ⟨[((nS1, nSw1), ⟨100, 20⟩), ((nSw1, nSw2), ⟨1000, 0⟩)], [(2, [([nS2], 7)])]⟩

/-- Two-edge state of the atomic-allocation scenario. -/
def c4st : SimState := ⟨[((nA, nB), ⟨50, 10⟩), ((nB, nA), ⟨60, 0⟩)], []⟩

/-- The four-edge known-value graph of test_metric_unbalanced_known. -/
def c5g : Graph :=
  [((nS1, nSw1), ⟨100, 100⟩), ((nSw1, nSw2), ⟨100, 50⟩),
   ((nSw2, nSw1), ⟨100, 50⟩), ((nS2, nSw2), ⟨100, 100⟩)]

/-- Initial state of the one-timestep run scenario. -/
def c6st0 : SimState := ⟨[((nS1, nSw1), ⟨100, 0⟩)], []⟩

/-- Shortest paths of the run scenario. -/
def c6sp : Node → Node → Option (List Node) := fun a b =>
  if a = nS1 ∧ b = nSw1 then some [nS1, nSw1] else none

/-- Controller of the run scenario. -/
def c6ctrl : LinkBalancerCtrl := ⟨[nSw1], [nS1]⟩

/-- Configuration of the run scenario. -/
def c6conf : SimConf := ⟨c6sp, fun sw => if sw = nSw1 then some c6ctrl else none, [nS1]⟩

/-- One-timestep workload of the run scenario. -/
def c6wl : List (List Req) := [[(nSw1, 10, 1)]]

/-- State after the single timestep of the run scenario. -/
def c6st1 : SimState := ⟨[((nS1, nSw1), ⟨100, 10⟩)], [(1, [([nS1, nSw1], 10)])]⟩

/-- The metric value lists the run scenario produces. -/
noncomputable def c6res : List ℝ × List ℝ :=
  ([rmse_links c6st1.graph], [Real.sqrt ((sumSqDev [((100:ℚ), (10:ℚ))] : ℚ) : ℝ)])

/-- Graph of the zero-considered-links scenario. -/
def c7g : Graph := [((nS1, nSw1), ⟨100, 0⟩)]

/-- Shortest paths of the zero-considered-links scenario. -/
def c7sp : Node → Node → Option (List Node) := fun a b =>
  if a = nS1 ∧ b = nSw1 then some [nS1, nSw1] else none

/-- Controller of the zero-considered-links scenario: it governs a
switch that appears on no candidate path. -/
def c7ctrl : LinkBalancerCtrl := ⟨[nSwX], [nS1]⟩

/-- Graph of the no-qualifying-path scenario: the only link reaches
projected utilization exactly 1. -/
def c7wg : Graph := [((nS1, nSw1), ⟨100, 90⟩)]

/-- Shortest paths of the no-qualifying-path scenario. -/
def c7wsp : Node → Node → Option (List Node) := fun a b =>
  if a = nS1 ∧ b = nSw1 then some [nS1, nSw1] else none

/-- Controller of the no-qualifying-path scenario. -/
def c7wctrl : LinkBalancerCtrl := ⟨[nSw1], [nS1]⟩

/-- State whose only bucket frees more than the edge holds. -/
def c8st : SimState := ⟨[((nA, nB), ⟨10, 3⟩)], [(0, [([nA, nB], 5)])]⟩

/-- State with one bucket at timestep 1, for the free semantics. -/
def c8wst : SimState := ⟨[((nA, nB), ⟨10, 3⟩)], [(1, [([nA, nB], 2)])]⟩

/-- Graph in which every server has exactly one out-neighbor. -/
def c9g : Graph :=
  [((nS1, nSw1), ⟨100, 30⟩), ((nSw1, nSw2), ⟨1000, 5⟩), ((nS2, nSw2), ⟨100, 30⟩)]

/-- The server list of the rmse_servers scenario. -/
def c9servers : List Node := [nS1, nS2]

/-! Counting key occurrences in link lists. -/

theorem keyCount_eq_zero_of_not_mem (k : Node × Node) (lnks : List (Node × Node))
    (h : k ∉ lnks) : keyCount k lnks = 0 := by
  induction lnks with
  | nil => rfl
  | cons l rest ih =>
    have hne : ¬(k = l) := fun hc => h (hc ▸ List.mem_cons_self _ _)
    rw [keyCount, if_neg hne, ih (fun hc => h (List.mem_cons_of_mem _ hc))]

theorem keyCount_le_one_of_nodup (k : Node × Node) (lnks : List (Node × Node))
    (h : lnks.Nodup) : keyCount k lnks ≤ 1 := by
  induction lnks with
  | nil => exact Nat.zero_le 1
  | cons l rest ih =>
    rw [List.nodup_cons] at h
    by_cases hk : k = l
    · rw [keyCount, if_pos hk, keyCount_eq_zero_of_not_mem k rest (hk ▸ h.1)]
    · rw [keyCount, if_neg hk]
      simpa using ih h.2

theorem mem_of_keyCount_ne_zero (k : Node × Node) (lnks : List (Node × Node))
    (h : keyCount k lnks ≠ 0) : k ∈ lnks := by
  by_contra hc
  exact h (keyCount_eq_zero_of_not_mem k lnks hc)

/-! The mutation loops as pointwise maps over the edge list. -/

theorem addOnLinks_eq_map (d : ℚ) (lnks : List (Node × Node)) (g : Graph) :
    addOnLinks g d lnks =
      g.map (fun ent => (ent.1, ⟨ent.2.capacity, ent.2.used + d * (keyCount ent.1 lnks : ℚ)⟩)) := by
  induction lnks generalizing g with
  | nil =>
    refine Eq.symm ((List.map_congr_left fun ent _ => ?_).trans (List.map_id g))
    simp [keyCount]
  | cons l rest ih =>
    show addOnLinks (updateEdge g l d) d rest = _
    rw [ih, updateEdge, List.map_map]
    refine List.map_congr_left fun ent _ => ?_
    by_cases h : ent.1 = l
    · simp only [Function.comp_apply, if_pos h, keyCount, if_pos h]
      congr 1
      congr 1
      push_cast
      ring
    · simp [Function.comp_apply, keyCount, if_neg h, h]

theorem freeFold_eq_map (B : List Flow) (g : Graph) :
    B.foldl (fun gg fl => addOnLinks gg (-fl.2) (links fl.1)) g =
      g.map (fun ent => (ent.1, ⟨ent.2.capacity, ent.2.used - bucketLoad B ent.1⟩)) := by
  induction B generalizing g with
  | nil =>
    refine Eq.symm ((List.map_congr_left fun ent _ => ?_).trans (List.map_id g))
    simp [bucketLoad]
  | cons fl rest ih =>
    show rest.foldl _ (addOnLinks g (-fl.2) (links fl.1)) = _
    rw [ih, addOnLinks_eq_map, List.map_map]
    refine List.map_congr_left fun ent _ => ?_
    simp only [Function.comp_apply, bucketLoad, List.map_cons, List.sum_cons]
    congr 1
    congr 1
    simp only [flowLoad]
    ring

/-! The verification loop of allocate_resources. -/

theorem checkLinks_ok_true_iff (g : Graph) (r : ℚ) (lnks : List (Node × Node)) :
    checkLinks g r lnks = Except.ok true ↔
      ∀ l ∈ lnks, ∃ ed, findEdge g l.1 l.2 = some ed ∧ ed.used + r ≤ ed.capacity := by
  induction lnks with
  | nil => simp [checkLinks]
  | cons l rest ih =>
    cases hfe : findEdge g l.1 l.2 with
    | none => simp [checkLinks, hfe]
    | some ed =>
      by_cases hov : ed.used + r > ed.capacity
      · simp [checkLinks, hfe, hov, not_le.mpr hov]
      · simp [checkLinks, hfe, hov, ih, not_lt.mp hov]

theorem checkLinks_eq_false (g : Graph) (r : ℚ) (lnks : List (Node × Node))
    (hex : ∀ l ∈ lnks, (findEdge g l.1 l.2).isSome)
    (hover : ∃ l ∈ lnks, ∀ ed, findEdge g l.1 l.2 = some ed → ed.capacity < ed.used + r) :
    checkLinks g r lnks = Except.ok false := by
  induction lnks with
  | nil => simp at hover
  | cons l rest ih =>
    obtain ⟨ed, hed⟩ := Option.isSome_iff_exists.mp (hex l (by simp))
    by_cases hov : ed.used + r > ed.capacity
    · simp [checkLinks, hed, hov]
    · rcases hover with ⟨l0, hl0mem, hl0⟩
      rcases List.mem_cons.mp hl0mem with h | h
      · exact absurd (hl0 ed (h ▸ hed)) hov
      · rw [checkLinks, hed]
        simp only [hov, if_false]
        exact ih (fun l2 h2 => hex l2 (List.mem_cons_of_mem _ h2)) ⟨l0, h, hl0⟩

/-! Ledger bucket operations. -/

theorem bucketAppend_fresh (L : Ledger) (t : ℤ) (fl : Flow) (h : ∀ b ∈ L, b.1 ≠ t) :
    bucketAppend L t fl = L ++ [(t, [fl])] := by
  induction L with
  | nil => rfl
  | cons b rest ih =>
    have hb : b.1 ≠ t := h b (by simp)
    simp [bucketAppend, hb, ih (fun b2 h2 => h b2 (List.mem_cons_of_mem _ h2))]

theorem lookupBucket_append_fresh (L : Ledger) (t : ℤ) (B : List Flow) (h : ∀ b ∈ L, b.1 ≠ t) :
    lookupBucket (L ++ [(t, B)]) t = some B := by
  induction L with
  | nil => simp [lookupBucket]
  | cons b rest ih =>
    have hb : b.1 ≠ t := h b (by simp)
    simp [lookupBucket, hb, ih (fun b2 h2 => h b2 (List.mem_cons_of_mem _ h2))]

theorem removeBucket_append_fresh (L : Ledger) (t : ℤ) (B : List Flow) (h : ∀ b ∈ L, b.1 ≠ t) :
    removeBucket (L ++ [(t, B)]) t = L := by
  induction L with
  | nil => simp [removeBucket]
  | cons b rest ih =>
    have hb : b.1 ≠ t := h b (by simp)
    simp [removeBucket, hb, ih (fun b2 h2 => h b2 (List.mem_cons_of_mem _ h2))]

theorem lookupBucket_mem (L : Ledger) (t : ℤ) (B : List Flow)
    (h : lookupBucket L t = some B) : (t, B) ∈ L := by
  induction L with
  | nil => cases h
  | cons b rest ih =>
    by_cases hb : b.1 = t
    · rw [lookupBucket, if_pos hb] at h
      have : B = b.2 := by injection h with h2; exact h2.symm
      subst this
      rw [← hb]
      exact List.mem_cons_self _ _
    · rw [lookupBucket, if_neg hb] at h
      exact List.mem_cons_of_mem _ (ih h)

theorem mem_removeBucket (L : Ledger) (t : ℤ) (b : ℤ × List Flow)
    (h : b ∈ removeBucket L t) : b ∈ L := by
  induction L with
  | nil => cases h
  | cons b0 rest ih =>
    by_cases hb : b0.1 = t
    · rw [removeBucket, if_pos hb] at h
      exact List.mem_cons_of_mem _ h
    · rw [removeBucket, if_neg hb] at h
      rcases List.mem_cons.mp h with h1 | h1
      · exact h1 ▸ List.mem_cons_self _ _
      · exact List.mem_cons_of_mem _ (ih h1)

/-! Edge lookup. -/

theorem findEdge_eq_of_mem (g : Graph) (ent : (Node × Node) × EdgeAttrs)
    (hnd : (g.map Prod.fst).Nodup) (hm : ent ∈ g) :
    findEdge g ent.1.1 ent.1.2 = some ent.2 := by
  induction g with
  | nil => cases hm
  | cons e rest ih =>
    rw [List.map_cons, List.nodup_cons] at hnd
    rcases List.mem_cons.mp hm with h | h
    · subst h
      simp [findEdge]
    · have hne : ¬(e.1 = (ent.1.1, ent.1.2)) := by
        intro hc
        exact hnd.1 (by
          rw [hc]
          exact List.mem_map_of_mem Prod.fst h)
      rw [findEdge, if_neg hne]
      exact ih hnd.2 h

theorem mem_of_findEdge (g : Graph) (u v : Node) (ed : EdgeAttrs)
    (h : findEdge g u v = some ed) : ((u, v), ed) ∈ g := by
  induction g with
  | nil => cases h
  | cons e rest ih =>
    by_cases hc : e.1 = (u, v)
    · rw [findEdge, if_pos hc] at h
      have : e.2 = ed := by injection h
      rw [← hc, ← this]
      exact List.mem_cons_self _ _
    · rw [findEdge, if_neg hc] at h
      exact List.mem_cons_of_mem _ (ih h)

theorem findEdge_of_mem_outNeighbors (g : Graph) (s d : Node) (h : d ∈ outNeighbors g s) :
    ∃ ed, findEdge g s d = some ed := by
  induction g with
  | nil => simp [outNeighbors] at h
  | cons e rest ih =>
    by_cases hc : e.1 = (s, d)
    · exact ⟨e.2, by rw [findEdge, if_pos hc]⟩
    · have h2 : d ∈ outNeighbors rest s := by
        by_cases hs : e.1.1 = s
        · rw [outNeighbors, List.filterMap_cons] at h
          simp only [hs, if_pos] at h
          rcases List.mem_cons.mp h with h1 | h1
          · exact absurd (Prod.ext hs (h1.symm)) hc
          · exact h1
        · rw [outNeighbors, List.filterMap_cons] at h
          simp only [hs, if_neg, if_false] at h
          exact h
      obtain ⟨ed, hed⟩ := ih h2
      exact ⟨ed, by rw [findEdge, if_neg hc]; exact hed⟩

/-! Ledger load accounting. -/

theorem ledgerLoad_cons (b : ℤ × List Flow) (M : Ledger) (k : Node × Node) :
    ledgerLoad (b :: M) k = bucketLoad b.2 k + ledgerLoad M k := by
  simp [ledgerLoad]

theorem bucketLoad_append (B1 B2 : List Flow) (k : Node × Node) :
    bucketLoad (B1 ++ B2) k = bucketLoad B1 k + bucketLoad B2 k := by
  simp [bucketLoad]

theorem bucketLoad_nonneg (B : List Flow) (k : Node × Node)
    (h : ∀ fl ∈ B, 0 ≤ fl.2) : 0 ≤ bucketLoad B k := by
  refine List.sum_nonneg fun x hx => ?_
  obtain ⟨fl, hfl, hx2⟩ := List.mem_map.mp hx
  rw [← hx2]
  exact mul_nonneg (h fl hfl) (Nat.cast_nonneg _)

theorem ledgerLoad_nonneg (L : Ledger) (k : Node × Node)
    (h : ∀ b ∈ L, ∀ fl ∈ b.2, 0 ≤ fl.2) : 0 ≤ ledgerLoad L k := by
  refine List.sum_nonneg fun x hx => ?_
  obtain ⟨b, hb, hx2⟩ := List.mem_map.mp hx
  rw [← hx2]
  exact bucketLoad_nonneg _ _ (h b hb)

theorem ledgerLoad_bucketAppend (L : Ledger) (t : ℤ) (fl : Flow) (k : Node × Node) :
    ledgerLoad (bucketAppend L t fl) k = ledgerLoad L k + flowLoad k fl := by
  induction L with
  | nil => simp [ledgerLoad, bucketAppend, bucketLoad]
  | cons b rest ih =>
    by_cases hb : b.1 = t
    · rw [bucketAppend, if_pos hb, ledgerLoad_cons, ledgerLoad_cons]
      show bucketLoad (b.2 ++ [fl]) k + ledgerLoad rest k =
        bucketLoad b.2 k + ledgerLoad rest k + flowLoad k fl
      rw [bucketLoad_append]
      have hone : bucketLoad [fl] k = flowLoad k fl := by simp [bucketLoad]
      rw [hone]
      ring
    · rw [bucketAppend, if_neg hb, ledgerLoad_cons, ledgerLoad_cons, ih]
      ring

theorem ledgerLoad_split (L : Ledger) (t : ℤ) (B : List Flow) (k : Node × Node)
    (h : lookupBucket L t = some B) :
    ledgerLoad L k = bucketLoad B k + ledgerLoad (removeBucket L t) k := by
  induction L with
  | nil => cases h
  | cons b rest ih =>
    by_cases hb : b.1 = t
    · rw [lookupBucket, if_pos hb] at h
      have h2 : b.2 = B := by injection h
      rw [removeBucket, if_pos hb, ledgerLoad_cons, h2]
    · rw [lookupBucket, if_neg hb] at h
      rw [removeBucket, if_neg hb, ledgerLoad_cons, ledgerLoad_cons, ih h]
      ring

theorem flows_bucketAppend (L : Ledger) (t : ℤ) (fl : Flow) (b : ℤ × List Flow)
    (hb : b ∈ bucketAppend L t fl) (fl2 : Flow) (hfl2 : fl2 ∈ b.2) :
    (∃ b0 ∈ L, fl2 ∈ b0.2) ∨ fl2 = fl := by
  induction L with
  | nil =>
    rw [bucketAppend] at hb
    rcases List.mem_singleton.mp hb with h
    rw [h] at hfl2
    exact Or.inr (List.mem_singleton.mp hfl2)
  | cons b0 rest ih =>
    by_cases h0 : b0.1 = t
    · rw [bucketAppend, if_pos h0] at hb
      rcases List.mem_cons.mp hb with h | h
      · rw [h] at hfl2
        rcases List.mem_append.mp hfl2 with h2 | h2
        · exact Or.inl ⟨b0, List.mem_cons_self _ _, h2⟩
        · exact Or.inr (List.mem_singleton.mp h2)
      · exact Or.inl ⟨b, List.mem_cons_of_mem _ h, hfl2⟩
    · rw [bucketAppend, if_neg h0] at hb
      rcases List.mem_cons.mp hb with h | h
      · exact Or.inl ⟨b0, List.mem_cons_self _ _, h ▸ hfl2⟩
      · rcases ih h with ⟨b1, hb1, hfl1⟩ | h2
        · exact Or.inl ⟨b1, List.mem_cons_of_mem _ hb1, hfl1⟩
        · exact Or.inr h2

/-! Edge keys are preserved by the mutation loops. -/

theorem keys_map_fst (g : Graph) (f : (Node × Node) × EdgeAttrs → EdgeAttrs) :
    (g.map (fun ent => (ent.1, f ent))).map Prod.fst = g.map Prod.fst := by
  rw [List.map_map]
  exact List.map_congr_left fun ent _ => rfl

/-! Preservation of the well-formedness invariant. -/

theorem Inv_alloc_state (st : SimState) (p : List Node) (r : ℚ) (t : ℤ)
    (hInv : Inv st) (hr : 0 ≤ r) (hnd : (links p).Nodup)
    (hck : checkLinks st.graph r (links p) = Except.ok true) :
    Inv ⟨addOnLinks st.graph r (links p), bucketAppend st.active_flows t (p, r)⟩ := by
  rcases hInv with ⟨hkeys, hedge, hflow⟩
  refine ⟨?_, ?_, ?_⟩
  · show ((addOnLinks st.graph r (links p)).map Prod.fst).Nodup
    rw [addOnLinks_eq_map, keys_map_fst]
    exact hkeys
  · intro ent hent
    have hent2 : ent ∈ (addOnLinks st.graph r (links p)) := hent
    rw [addOnLinks_eq_map] at hent2
    obtain ⟨ent0, hm0, hfeq⟩ := List.mem_map.mp hent2
    obtain ⟨h0u, h0c, h0l⟩ := hedge ent0 hm0
    have hc1 : keyCount ent0.1 (links p) ≤ 1 := keyCount_le_one_of_nodup ent0.1 (links p) hnd
    have hcnn : (0:ℚ) ≤ (keyCount ent0.1 (links p) : ℚ) := Nat.cast_nonneg _
    refine hfeq ▸ ⟨add_nonneg h0u (mul_nonneg hr hcnn), ?_, ?_⟩
    · have hc01 : keyCount ent0.1 (links p) = 0 ∨ keyCount ent0.1 (links p) = 1 := by omega
      rcases hc01 with hc | hc
      · simp only [hc, Nat.cast_zero, mul_zero, add_zero]
        exact h0c
      · have hmem : ent0.1 ∈ links p := mem_of_keyCount_ne_zero ent0.1 (links p) (by omega)
        obtain ⟨ed, hed, hfit⟩ := (checkLinks_ok_true_iff st.graph r (links p)).mp hck
          ent0.1 hmem
        have hed0 : findEdge st.graph ent0.1.1 ent0.1.2 = some ent0.2 :=
          findEdge_eq_of_mem st.graph ent0 hkeys hm0
        have hed2 : ed = ent0.2 := by
          rw [hed0] at hed
          injection hed with h2
          exact h2.symm
        simp only [hc, Nat.cast_one, mul_one]
        rw [← hed2]
        linarith [hfit]
    · show ledgerLoad (bucketAppend st.active_flows t (p, r)) ent0.1 ≤
        ent0.2.used + r * (keyCount ent0.1 (links p) : ℚ)
      rw [ledgerLoad_bucketAppend]
      have hfl : flowLoad ent0.1 (p, r) = r * (keyCount ent0.1 (links p) : ℚ) := rfl
      rw [hfl]
      exact add_le_add_right h0l _
  · intro b2 hb2 fl2 hfl2
    have hb2a : b2 ∈ bucketAppend st.active_flows t (p, r) := hb2
    rcases flows_bucketAppend st.active_flows t (p, r) b2 hb2a fl2 hfl2 with ⟨b0, hb0, hf0⟩ | h2
    · exact hflow b0 hb0 fl2 hf0
    · rw [h2]
      exact hr

theorem Inv_allocate (st : SimState) (p : List Node) (r : ℚ) (t : ℤ) (st1 : SimState)
    (hInv : Inv st) (hr : 0 ≤ r) (hnd : (links p).Nodup)
    (h : allocate_resources st p r t = Except.ok st1) : Inv st1 := by
  by_cases hp : p.isEmpty
  · rw [allocate_resources, if_pos hp] at h
    have h1 : st = st1 := by injection h
    exact h1 ▸ hInv
  · rw [allocate_resources, if_neg hp] at h
    cases hck : checkLinks st.graph r (links p) with
    | error e => rw [hck] at h; cases h
    | ok b =>
      cases b with
      | false =>
        rw [hck] at h
        have h1 : st = st1 := by injection h
        exact h1 ▸ hInv
      | true =>
        rw [hck] at h
        have h1 : (⟨addOnLinks st.graph r (links p),
            bucketAppend st.active_flows t (p, r)⟩ : SimState) = st1 := by
          injection h
        exact h1 ▸ Inv_alloc_state st p r t hInv hr hnd hck

theorem Inv_free (st : SimState) (t : ℤ) (hInv : Inv st) : Inv (free_resources st t) := by
  rcases hInv with ⟨hkeys, hedge, hflow⟩
  cases hlb : lookupBucket st.active_flows t with
  | none =>
    rw [free_resources, hlb]
    exact ⟨hkeys, hedge, hflow⟩
  | some B =>
    rw [free_resources, hlb]
    show Inv ⟨B.foldl (fun gg fl => addOnLinks gg (-fl.2) (links fl.1)) st.graph,
      removeBucket st.active_flows t⟩
    have hBflows : ∀ fl ∈ B, 0 ≤ fl.2 :=
      fun fl hfl => hflow (t, B) (lookupBucket_mem _ _ _ hlb) fl hfl
    refine ⟨?_, ?_, ?_⟩
    · show ((B.foldl (fun gg fl => addOnLinks gg (-fl.2) (links fl.1)) st.graph).map
        Prod.fst).Nodup
      rw [freeFold_eq_map, keys_map_fst]
      exact hkeys
    · intro ent hent
      have hent2 : ent ∈ B.foldl (fun gg fl => addOnLinks gg (-fl.2) (links fl.1)) st.graph :=
        hent
      rw [freeFold_eq_map] at hent2
      obtain ⟨ent0, hm0, hfeq⟩ := List.mem_map.mp hent2
      obtain ⟨h0u, h0c, h0l⟩ := hedge ent0 hm0
      have hsplit := ledgerLoad_split st.active_flows t B ent0.1 hlb
      have hbl : 0 ≤ bucketLoad B ent0.1 := bucketLoad_nonneg _ _ hBflows
      have hrl : 0 ≤ ledgerLoad (removeBucket st.active_flows t) ent0.1 :=
        ledgerLoad_nonneg _ _ (fun b hb fl hfl => hflow b (mem_removeBucket _ _ _ hb) fl hfl)
      refine hfeq ▸ ⟨?_, ?_, ?_⟩
      · show (0:ℚ) ≤ ent0.2.used - bucketLoad B ent0.1
        linarith
      · show ent0.2.used - bucketLoad B ent0.1 ≤ ent0.2.capacity
        linarith
      · show ledgerLoad (removeBucket st.active_flows t) ent0.1 ≤
          ent0.2.used - bucketLoad B ent0.1
        linarith
    · intro b hb fl hfl
      exact hflow b (mem_removeBucket _ _ _ hb) fl hfl

/-! The path selection loop of handle_request. -/

theorem listMax_isSome (lm : List ℚ) (h : lm ≠ []) : ∃ m, listMax lm = some m := by
  cases lm with
  | nil => exact absurd rfl h
  | cons x xs => exact ⟨xs.foldl max x, rfl⟩

theorem hrGo_ok_some_mem (sw : List Node) (g : Graph) (util : ℚ) :
    ∀ (paths : List (List Node)) (best : Option (List Node)) (bm : ℚ) (p : List Node),
    hrGo sw g util paths best bm = Except.ok (some p) → p ∈ paths ∨ best = some p := by
  intro paths
  induction paths with
  | nil =>
    intro best bm p h
    rw [hrGo] at h
    injection h with h2
    exact Or.inr h2
  | cons p0 rest ih =>
    intro best bm p h
    rw [hrGo] at h
    split at h
    · cases h
    · split at h
      · cases h
      · split at h
        · rcases ih _ _ _ h with h2 | h2
          · exact Or.inl (List.mem_cons_of_mem _ h2)
          · have h3 : p0 = p := by injection h2
            exact Or.inl (h3 ▸ List.mem_cons_self _ _)
        · rcases ih _ _ _ h with h2 | h2
          · exact Or.inl (List.mem_cons_of_mem _ h2)
          · exact Or.inr h2

theorem hrGo_error_of_empty (sw : List Node) (g : Graph) (util : ℚ) :
    ∀ (paths : List (List Node)) (best : Option (List Node)) (bm : ℚ),
    (∀ p ∈ paths, ∃ lm, linkMetrics sw g util (links p) = Except.ok lm) →
    (∃ p ∈ paths, linkMetrics sw g util (links p) = Except.ok []) →
    ∃ e, hrGo sw g util paths best bm = Except.error e := by
  intro paths
  induction paths with
  | nil =>
    intro best bm _ hbad
    simp at hbad
  | cons p0 rest ih =>
    intro best bm hall hbad
    obtain ⟨lm0, hlm0⟩ := hall p0 (List.mem_cons_self _ _)
    by_cases hempty : lm0 = []
    · refine ⟨valueErrorMsg, ?_⟩
      rw [hrGo, hlm0, hempty]
      rfl
    · rcases hbad with ⟨pb, hpbmem, hpb⟩
      rcases List.mem_cons.mp hpbmem with hh | hh
      · exfalso
        rw [hh, hlm0] at hpb
        have : lm0 = [] := by injection hpb
        exact hempty this
      · obtain ⟨pm, hpm⟩ := listMax_isSome lm0 hempty
        obtain ⟨e, he⟩ := ih (some p0) pm
          (fun p hp => hall p (List.mem_cons_of_mem _ hp)) ⟨pb, hh, hpb⟩
        obtain ⟨e2, he2⟩ := ih best bm
          (fun p hp => hall p (List.mem_cons_of_mem _ hp)) ⟨pb, hh, hpb⟩
        by_cases hlt : pm < bm
        · exact ⟨e, by simp only [hrGo, hlm0, hpm, if_pos hlt]; exact he⟩
        · exact ⟨e2, by simp only [hrGo, hlm0, hpm, if_neg hlt]; exact he2⟩

theorem hrGo_none_of_no_qualifying (sw : List Node) (g : Graph) (util : ℚ) :
    ∀ paths : List (List Node),
    (∀ p ∈ paths, ∃ lm, linkMetrics sw g util (links p) = Except.ok lm ∧ lm ≠ [] ∧
        ∀ m, listMax lm = some m → 1 ≤ m) →
    hrGo sw g util paths none 1 = Except.ok none := by
  intro paths
  induction paths with
  | nil => intro _; rfl
  | cons p0 rest ih =>
    intro h
    obtain ⟨lm0, hlm0, hne, hge⟩ := h p0 (List.mem_cons_self _ _)
    obtain ⟨m0, hm0⟩ := listMax_isSome lm0 hne
    simp only [hrGo, hlm0, hm0, if_neg (not_lt.mpr (hge m0 hm0))]
    exact ih (fun p hp => h p (List.mem_cons_of_mem _ hp))

/-! The server pair collection loop of rmse_servers. -/

theorem serverPairs_ok (g : Graph) : ∀ servers : List Node,
    (∀ s ∈ servers, (outNeighbors g s).length = 1) →
    serverPairs g servers = Except.ok (servers.map (serverEdgeData g)) := by
  intro servers
  induction servers with
  | nil => intro _; rfl
  | cons s rest ih =>
    intro h
    obtain ⟨d, hd⟩ := List.length_eq_one.mp (h s (List.mem_cons_self _ _))
    obtain ⟨ed, hed⟩ := findEdge_of_mem_outNeighbors g s d
      (by rw [hd]; exact List.mem_singleton.mpr rfl)
    have hsed : serverEdgeData g s = (ed.capacity, ed.used) := by
      rw [serverEdgeData, hd]
      simp [hed]
    rw [serverPairs, hd]
    simp only [hed, ih (fun s2 h2 => h s2 (List.mem_cons_of_mem _ h2)), Except.map,
      List.map_cons, hsed]

theorem serverPairs_error (g : Graph) : ∀ servers : List Node,
    (∃ s ∈ servers, (outNeighbors g s).length ≠ 1) →
    ∃ e, serverPairs g servers = Except.error e := by
  intro servers
  induction servers with
  | nil =>
    intro h
    simp at h
  | cons s rest ih =>
    intro h
    cases hns : outNeighbors g s with
    | nil => exact ⟨notImplementedMsg, by rw [serverPairs, hns]⟩
    | cons d rest2 =>
      cases rest2 with
      | nil =>
        rcases h with ⟨s0, hs0mem, hs0⟩
        rcases List.mem_cons.mp hs0mem with hh | hh
        · exfalso
          rw [hh, hns] at hs0
          simp at hs0
        · obtain ⟨ed, hed⟩ := findEdge_of_mem_outNeighbors g s d
            (by rw [hns]; exact List.mem_cons_self _ _)
          obtain ⟨e, he⟩ := ih ⟨s0, hh, hs0⟩
          refine ⟨e, ?_⟩
          rw [serverPairs, hns]
          simp [hed, he, Except.map]
      | cons d2 rest3 =>
        exact ⟨notImplementedMsg, by rw [serverPairs, hns]⟩

/-! The run loop: metrics are evaluated once per timestep, after the
free and admit phases of that timestep, in timestep order. -/

theorem run_from_ok_char (conf : SimConf) : ∀ (wl : List (List Req)) (i : ℤ) (st : SimState)
    (l1 l2 : List ℝ), run_from conf i st wl = Except.ok (l1, l2) →
    l1.length = wl.length ∧ l2.length = wl.length ∧
    ∀ t, t < wl.length →
      ∃ stt, steps conf i st (wl.take (t+1)) = Except.ok stt ∧
        l1.getD t 0 = rmse_links stt.graph ∧
        rmse_servers conf.servers stt.graph = Except.ok (l2.getD t 0) := by
  intro wl
  induction wl with
  | nil =>
    intro i st l1 l2 h
    rw [run_from] at h
    have h2 : (([], []) : List ℝ × List ℝ) = (l1, l2) := by injection h
    have hl1 : ([] : List ℝ) = l1 := by injection h2
    have hl2 : ([] : List ℝ) = l2 := by injection h2
    subst hl1
    subst hl2
    exact ⟨rfl, rfl, fun t ht => absurd ht (by simp)⟩
  | cons reqs rest ih =>
    intro i st l1 l2 h
    rw [run_from] at h
    split at h
    · cases h
    · rename_i st1 hstep
      split at h
      · cases h
      · rename_i v2 hms
        split at h
        · cases h
        · rename_i m1 m2 hrec
          have h2 : (rmse_links st1.graph :: m1, v2 :: m2) = (l1, l2) := by injection h
          have hl1 : rmse_links st1.graph :: m1 = l1 := by injection h2
          have hl2 : v2 :: m2 = l2 := by injection h2
          subst hl1
          subst hl2
          obtain ⟨ihl1, ihl2, ihc⟩ := ih (i + 1) st1 m1 m2 hrec
          refine ⟨by simp [ihl1], by simp [ihl2], ?_⟩
          intro t ht
          cases t with
          | zero =>
            refine ⟨st1, ?_, by simp, by simp [hms]⟩
            show steps conf i st (List.take 1 (reqs :: rest)) = Except.ok st1
            rw [List.take_succ_cons, List.take_zero]
            rw [steps, hstep]
            rfl
          | succ t0 =>
            have ht0 : t0 < rest.length := by simpa using ht
            obtain ⟨stt, hstt, hv1, hv2⟩ := ihc t0 ht0
            refine ⟨stt, ?_, by simpa using hv1, by simpa using hv2⟩
            rw [List.take_succ_cons, steps, hstep]
            exact hstt

/-! Preservation of the invariant along the run loop. -/

theorem Inv_handle_demand (conf : SimConf) (st st1 : SimState) (i : ℤ) (req : Req)
    (hInv : Inv st) (hsize : 0 ≤ req.2.1)
    (hsp : ∀ a b p, conf.sp a b = some p → (links p).Nodup)
    (h : handle_demand conf st i req = Except.ok st1) : Inv st1 := by
  rw [handle_demand] at h
  by_cases hdur : req.2.2 ≤ 0
  · rw [if_pos hdur] at h
    cases h
  · rw [if_neg hdur] at h
    split at h
    · cases h
    · rename_i ctrl hc
      split at h
      · cases h
      · have h2 : st = st1 := by injection h
        exact h2 ▸ hInv
      · rename_i p hhr
        have hmem := hrGo_ok_some_mem ctrl.switches st.graph req.2.1
          (candidate_paths conf.sp ctrl req.1) none 1 p hhr
        rcases hmem with hmem | hmem
        · obtain ⟨s, _, hsp2⟩ := List.mem_filterMap.mp hmem
          exact Inv_allocate st p req.2.1 (req.2.2 + i) st1 hInv hsize (hsp _ _ _ hsp2) h
        · cases hmem

theorem Inv_handle_reqs (conf : SimConf)
    (hsp : ∀ a b p, conf.sp a b = some p → (links p).Nodup) :
    ∀ (reqs : List Req) (st st1 : SimState) (i : ℤ), Inv st →
    (∀ r ∈ reqs, 0 ≤ r.2.1) →
    handle_reqs conf i st reqs = Except.ok st1 → Inv st1 := by
  intro reqs
  induction reqs with
  | nil =>
    intro st st1 i hInv _ h
    have h2 : st = st1 := by injection h
    exact h2 ▸ hInv
  | cons r rest ih =>
    intro st st1 i hInv hsize h
    rw [handle_reqs] at h
    split at h
    · cases h
    · rename_i stm hd
      have hInvm := Inv_handle_demand conf st stm i r hInv (hsize r (List.mem_cons_self _ _))
        hsp hd
      exact ih stm st1 i hInvm (fun r2 h2 => hsize r2 (List.mem_cons_of_mem _ h2)) h

theorem Inv_steps (conf : SimConf)
    (hsp : ∀ a b p, conf.sp a b = some p → (links p).Nodup) :
    ∀ (wl : List (List Req)) (i : ℤ) (st st1 : SimState), Inv st →
    (∀ reqs ∈ wl, ∀ r ∈ reqs, 0 ≤ r.2.1) →
    steps conf i st wl = Except.ok st1 → Inv st1 := by
  intro wl
  induction wl with
  | nil =>
    intro i st st1 hInv _ h
    have h2 : st = st1 := by injection h
    exact h2 ▸ hInv
  | cons reqs rest ih =>
    intro i st st1 hInv hsize h
    rw [steps] at h
    split at h
    · cases h
    · rename_i stm hs
      have hInvm : Inv stm :=
        Inv_handle_reqs conf hsp reqs (free_resources st i) stm i (Inv_free st i hInv)
          (hsize reqs (List.mem_cons_self _ _)) hs
      exact ih (i + 1) stm st1 hInvm (fun r2 h2 => hsize r2 (List.mem_cons_of_mem _ h2)) h

/-! Closed forms of free_resources. -/

theorem free_resources_noop (st : SimState) (t : ℤ)
    (h : lookupBucket st.active_flows t = none) : free_resources st t = st := by
  rw [free_resources, h]

theorem free_resources_eq_of_lookup (st : SimState) (t : ℤ) (B : List Flow)
    (h : lookupBucket st.active_flows t = some B) :
    free_resources st t =
      ⟨st.graph.map (fun ent => (ent.1, ⟨ent.2.capacity, ent.2.used - bucketLoad B ent.1⟩)),
        removeBucket st.active_flows t⟩ := by
  rw [free_resources, h]
  show (⟨B.foldl (fun gg fl => addOnLinks gg (-fl.2) (links fl.1)) st.graph,
    removeBucket st.active_flows t⟩ : SimState) = _
  rw [freeFold_eq_map]

/-! Claim theorems. -/

/-- Claim C10: for every single-node path, allocate_resources leaves every
edge unchanged (a single node spans no links) but still appends a flow
record for that path to the ledger bucket of the given expiry timestep;
only the empty path takes the early-return branch. -/
theorem c10_single_node_path_registers_flow (st : SimState) (x : Node) (r : ℚ) (t : ℤ) :
    allocate_resources st [x] r t =
      Except.ok ⟨st.graph, bucketAppend st.active_flows t ([x], r)⟩ := by
  rw [allocate_resources, if_neg (by simp)]
  rfl

/-- Claim C4: allocate_resources is atomic.  When every link of the path
exists in the graph: an empty path returns at once with no observable
effect; a path with an oversubscribed link returns the state unchanged
with no flow recorded; otherwise the amount is added to used on every
link occurrence of the path and the flow is appended to the bucket of
its expiry timestep. -/
theorem c4_allocate_resources_atomic (st : SimState) (path : List Node) (r : ℚ) (t : ℤ)
    (hex : ∀ l ∈ links path, (findEdge st.graph l.1 l.2).isSome) :
    (path = [] → allocate_resources st path r t = Except.ok st) ∧
    ((∃ l ∈ links path, ∀ ed, findEdge st.graph l.1 l.2 = some ed → ed.capacity < ed.used + r) →
      allocate_resources st path r t = Except.ok st) ∧
    (path ≠ [] →
      (∀ l ∈ links path, ∀ ed, findEdge st.graph l.1 l.2 = some ed → ed.used + r ≤ ed.capacity) →
      allocate_resources st path r t = Except.ok
        ⟨st.graph.map (fun ent =>
            (ent.1, ⟨ent.2.capacity, ent.2.used + r * (keyCount ent.1 (links path) : ℚ)⟩)),
          bucketAppend st.active_flows t (path, r)⟩) := by
  refine ⟨?_, ?_, ?_⟩
  · intro hp
    subst hp
    rfl
  · intro hover
    have hne : path ≠ [] := by
      rcases hover with ⟨l, hl, _⟩
      intro hp
      subst hp
      simp [links] at hl
    have hie : path.isEmpty = false := by
      cases path with
      | nil => exact absurd rfl hne
      | cons a rest => rfl
    rw [allocate_resources, if_neg (by rw [hie]; simp),
      checkLinks_eq_false st.graph r (links path) hex hover]
  · intro hne hfit
    have hie : path.isEmpty = false := by
      cases path with
      | nil => exact absurd rfl hne
      | cons a rest => rfl
    have hck : checkLinks st.graph r (links path) = Except.ok true := by
      rw [checkLinks_ok_true_iff]
      intro l hl
      obtain ⟨ed, hed⟩ := Option.isSome_iff_exists.mp (hex l hl)
      exact ⟨ed, hed, hfit l hl ed hed⟩
    rw [allocate_resources, if_neg (by rw [hie]; simp), hck, addOnLinks_eq_map]

/-- Witness for C4: a concrete two-link path that fits. -/
theorem c4_allocate_resources_atomic_witness :
    allocate_resources c4st [nA, nB, nA] 5 7 = Except.ok
      ⟨c4st.graph.map (fun ent =>
          (ent.1, ⟨ent.2.capacity, ent.2.used + 5 * (keyCount ent.1 (links [nA, nB, nA]) : ℚ)⟩)),
        bucketAppend c4st.active_flows 7 ([nA, nB, nA], 5)⟩ := by
  refine (c4_allocate_resources_atomic c4st [nA, nB, nA] 5 7 ?_).2.2 (by simp) ?_
  · intro l hl
    simp [links, nA, nB] at hl
    rcases hl with h | h <;> subst h <;> simp [findEdge, c4st, nA, nB]
  · intro l hl ed hed
    simp [links, nA, nB] at hl
    rcases hl with h | h <;> subst h <;>
      simp [findEdge, c4st, nA, nB] at hed <;> rw [← hed] <;> norm_num

/-- Claim C8 (amended): free_resources with no bucket for the timestep is
a harmless no-op; with a bucket it silently subtracts each recorded
flow along its path and pops the bucket — no error is raised and no
clamping occurs, so the subtraction can leave used negative. -/
theorem c8_free_noop_or_silent_subtract (st : SimState) (t : ℤ) :
    (lookupBucket st.active_flows t = none → free_resources st t = st) ∧
    (∀ B, lookupBucket st.active_flows t = some B →
      free_resources st t =
        ⟨st.graph.map (fun ent => (ent.1, ⟨ent.2.capacity, ent.2.used - bucketLoad B ent.1⟩)),
          removeBucket st.active_flows t⟩) :=
  ⟨free_resources_noop st t, fun B h => free_resources_eq_of_lookup st t B h⟩

/-- Claim C8 counterexample: freeing bucket 0 of c8st subtracts 5 from an
edge holding only 3 and returns normally with used = -2, contradicting
the claim that such a free raises a distinguishable fatal error. -/
theorem c8_free_goes_negative_silently :
    free_resources c8st 0 = ⟨[((nA, nB), ⟨10, -2⟩)], []⟩ ∧ ((-2:ℚ) < 0) := by
  constructor
  · norm_num [free_resources, c8st, lookupBucket, removeBucket, addOnLinks, updateEdge,
      links, nA, nB]
  · norm_num

/-- Witness for C8: both branches at concrete states. -/
theorem c8_free_noop_or_silent_subtract_witness :
    free_resources c8wst 3 = c8wst ∧
    free_resources c8wst 1 =
      ⟨c8wst.graph.map (fun ent =>
          (ent.1, ⟨ent.2.capacity, ent.2.used - bucketLoad [([nA, nB], 2)] ent.1⟩)),
        removeBucket c8wst.active_flows 1⟩ := by
  constructor
  · exact (c8_free_noop_or_silent_subtract c8wst 3).1 (by norm_num [lookupBucket, c8wst])
  · exact (c8_free_noop_or_silent_subtract c8wst 1).2 [([nA, nB], 2)]
      (by norm_num [lookupBucket, c8wst])

/-- Claim C5: for every graph with positive total capacity, rmse_links
returns the square root of the population sum over all edges of the
squared difference between used and the proportional ideal share of the
capacity, and on the known four-edge graph it returns exactly 50. -/
theorem c5_rmse_links_spec_and_known_value :
    (∀ g : Graph, 0 < (g.map (fun ent => ent.2.capacity)).sum →
      rmse_links g = rmse_links_spec g) ∧
    rmse_links c5g = 50 := by
  constructor
  · intro g _
    rw [rmse_links, rmse_links_spec]
    congr 1
    norm_cast
    simp [sumSqDev, graphPairs, List.map_map, Function.comp_def, sq_abs]
  · have h : sumSqDev (graphPairs c5g) = 2500 := by
      norm_num [sumSqDev, graphPairs, c5g, nS1, nS2, nSw1, nSw2]
    rw [rmse_links, h]
    rw [show (((2500:ℚ):ℝ)) = 50 ^ 2 by norm_num]
    exact Real.sqrt_sq (by norm_num)

/-- Witness for C5 at the known-value graph, whose total capacity is
positive. -/
theorem c5_rmse_links_spec_and_known_value_witness :
    rmse_links c5g = rmse_links_spec c5g :=
  c5_rmse_links_spec_and_known_value.1 c5g (by norm_num [c5g, nS1, nS2, nSw1, nSw2])

/-- Claim C9: rmse_servers raises a distinguishable error when some server
has other than exactly one out-neighbor, and otherwise returns the same
square-root-of-summed-squared-deviations computation over the edges
from each server to its single neighbor. -/
theorem c9_rmse_servers_error_or_value (servers : List Node) (g : Graph) :
    ((∃ s ∈ servers, (outNeighbors g s).length ≠ 1) →
      ∃ e, rmse_servers servers g = Except.error e) ∧
    ((∀ s ∈ servers, (outNeighbors g s).length = 1) →
      rmse_servers servers g =
        Except.ok (Real.sqrt ((sumSqDev (servers.map (serverEdgeData g)) : ℚ) : ℝ))) := by
  constructor
  · intro h
    obtain ⟨e, he⟩ := serverPairs_error g servers h
    refine ⟨e, ?_⟩
    rw [rmse_servers, he]
    rfl
  · intro h
    rw [rmse_servers, serverPairs_ok g servers h]
    rfl

/-- Witness for C9 at a topology where both servers have exactly one
out-neighbor. -/
theorem c9_rmse_servers_error_or_value_witness :
    rmse_servers c9servers c9g =
      Except.ok (Real.sqrt ((sumSqDev (c9servers.map (serverEdgeData c9g)) : ℚ) : ℝ)) :=
  (c9_rmse_servers_error_or_value c9servers c9g).2 (by
    intro s hs
    simp only [c9servers, List.mem_cons, List.mem_singleton] at hs
    rcases hs with h | h | h
    · subst h
      simp [outNeighbors, c9g, nS1, nS2, nSw1, nSw2, List.filterMap]
    · subst h
      simp [outNeighbors, c9g, nS1, nS2, nSw1, nSw2, List.filterMap]
    · cases h)

/-- Claim C3 (amended): for a path of at least 2 nodes whose links all
exist and fit, and an expiry with no existing bucket, allocating and
then freeing that expiry restores every edge and the ledger exactly and
leaves no bucket for the expiry, so rmse_links before the allocation
equals rmse_links after the round trip.  The in-between rmse_links
value however need not differ from the initial one when the amount is
nonzero (see the counterexample). -/
theorem c3_allocate_free_round_trip (st : SimState) (path : List Node) (a : ℚ) (e : ℤ)
    (hlen : 2 ≤ path.length)
    (hfit : ∀ l ∈ links path, ∃ ed, findEdge st.graph l.1 l.2 = some ed ∧
      ed.used + a ≤ ed.capacity)
    (hfresh : ∀ b ∈ st.active_flows, b.1 ≠ e) :
    allocate_resources st path a e = Except.ok
      ⟨addOnLinks st.graph a (links path), bucketAppend st.active_flows e (path, a)⟩ ∧
    free_resources
      ⟨addOnLinks st.graph a (links path), bucketAppend st.active_flows e (path, a)⟩ e = st ∧
    (∀ b ∈ (free_resources
      ⟨addOnLinks st.graph a (links path), bucketAppend st.active_flows e (path, a)⟩
        e).active_flows, b.1 ≠ e) ∧
    rmse_links (free_resources
      ⟨addOnLinks st.graph a (links path), bucketAppend st.active_flows e (path, a)⟩
        e).graph = rmse_links st.graph := by
  have hne : path ≠ [] := by
    intro h
    rw [h] at hlen
    simp at hlen
  have hie : path.isEmpty = false := by
    cases path with
    | nil => exact absurd rfl hne
    | cons x rest => rfl
  have hck : checkLinks st.graph a (links path) = Except.ok true :=
    (checkLinks_ok_true_iff st.graph a (links path)).mpr hfit
  have halloc : allocate_resources st path a e = Except.ok
      ⟨addOnLinks st.graph a (links path), bucketAppend st.active_flows e (path, a)⟩ := by
    rw [allocate_resources, if_neg (by rw [hie]; simp), hck]
  have hba : bucketAppend st.active_flows e (path, a) =
      st.active_flows ++ [(e, [(path, a)])] := bucketAppend_fresh _ _ _ hfresh
  have hlu : lookupBucket (bucketAppend st.active_flows e (path, a)) e = some [(path, a)] := by
    rw [hba]
    exact lookupBucket_append_fresh _ _ _ hfresh
  have hfree : free_resources
      ⟨addOnLinks st.graph a (links path), bucketAppend st.active_flows e (path, a)⟩ e = st := by
    rw [free_resources_eq_of_lookup _ e [(path, a)] hlu]
    have hrm : removeBucket (bucketAppend st.active_flows e (path, a)) e = st.active_flows := by
      rw [hba]
      exact removeBucket_append_fresh _ _ _ hfresh
    have hgr : (addOnLinks st.graph a (links path)).map
        (fun ent => (ent.1, ⟨ent.2.capacity, ent.2.used - bucketLoad [(path, a)] ent.1⟩))
        = st.graph := by
      rw [addOnLinks_eq_map, List.map_map]
      refine (List.map_congr_left fun ent _ => ?_).trans (List.map_id st.graph)
      simp [Function.comp_def, bucketLoad, flowLoad]
    show (⟨(addOnLinks st.graph a (links path)).map
        (fun ent => (ent.1, ⟨ent.2.capacity, ent.2.used - bucketLoad [(path, a)] ent.1⟩)),
      removeBucket (bucketAppend st.active_flows e (path, a)) e⟩ : SimState) = st
    rw [hgr, hrm]
  refine ⟨halloc, hfree, ?_, ?_⟩
  · rw [hfree]
    exact hfresh
  · rw [hfree]

/-- Claim C3 counterexample, refuting both failing clauses of the claim
at one concrete input.  On c3dst the edge (a, b) holds 5 units before
the allocation and a bucket for expiry 5 already exists.  The nonzero
amount 40 fits, allocate_resources succeeds, yet free_resources(5) also
releases the pre-existing 5-unit flow of that bucket, leaving used = 0
instead of the pre-allocation value 5 — the round trip does not restore
the edge.  Moreover rmse_links measured between the two calls equals
rmse_links before the allocation although 40 is nonzero, refuting that
the intermediate metric must differ unless the amount is zero. -/
theorem c3_round_trip_claim_fails_on_dirty_bucket :
    allocate_resources c3dst [nA, nB] 40 5 = Except.ok c3dmid ∧
    (∀ l ∈ links [nA, nB], ∃ ed, findEdge c3dst.graph l.1 l.2 = some ed ∧
      ed.used + 40 ≤ ed.capacity) ∧
    free_resources c3dmid 5 = ⟨[((nA, nB), ⟨100, 0⟩)], []⟩ ∧
    findEdge c3dst.graph nA nB = some ⟨100, 5⟩ ∧
    ((0:ℚ) ≠ 5) ∧
    rmse_links c3dmid.graph = rmse_links c3dst.graph ∧
    ((40:ℚ) ≠ 0) := by
  refine ⟨?_, ?_, ?_, ?_, by norm_num, ?_, by norm_num⟩
  · norm_num [allocate_resources, checkLinks, links, findEdge, addOnLinks, updateEdge,
      bucketAppend, c3dst, c3dmid, nA, nB]
  · intro l hl
    simp [links] at hl
    subst hl
    exact ⟨⟨100, 5⟩, by simp [findEdge, c3dst], by norm_num⟩
  · norm_num [free_resources, lookupBucket, removeBucket, addOnLinks, updateEdge, links,
      c3dmid, nA, nB]
  · simp [findEdge, c3dst]
  · have h1 : sumSqDev (graphPairs c3dmid.graph) = 0 := by
      norm_num [sumSqDev, graphPairs, c3dmid]
    have h2 : sumSqDev (graphPairs c3dst.graph) = 0 := by
      norm_num [sumSqDev, graphPairs, c3dst]
    rw [rmse_links, rmse_links, h1, h2]

/-- Witness for C3 on a two-edge state with an unrelated ledger bucket. -/
theorem c3_allocate_free_round_trip_witness :
    free_resources
      ⟨addOnLinks c3wst.graph 40 (links [nS1, nSw1]),
        bucketAppend c3wst.active_flows 5 ([nS1, nSw1], 40)⟩ 5 = c3wst := by
  refine (c3_allocate_free_round_trip c3wst [nS1, nSw1] 40 5 (by simp) ?_ ?_).2.1
  · intro l hl
    simp [links] at hl
    subst hl
    exact ⟨⟨100, 20⟩, by simp [findEdge, c3wst, nS1, nSw1], by norm_num⟩
  · intro b hb
    simp [c3wst] at hb
    subst hb
    norm_num

/-- Claim C1 (evaluation of the code at the failing input): handle_request
returns the candidate path through (s1, sw1) even though that considered
link has projected utilization 1.1 above 1 — the oversubscription branch
only skips the metric append, because the bare next statement is a
no-op, so the path is scored by its other considered link alone and
wins the selection. -/
theorem c1_handle_request_selects_oversubscribed_path :
    handle_request c1sp c1ctrl c1g nSw2 10 = Except.ok (some [nS1, nSw1, nSw2]) ∧
    (nS1, nSw1) ∈ links [nS1, nSw1, nSw2] ∧
    (nSw1 ∈ c1ctrl.switches ∨ nS1 ∈ c1ctrl.switches) ∧
    findEdge c1g nS1 nSw1 = some ⟨100, 100⟩ ∧
    ((100:ℚ) + 10) / 100 > 1 := by
  refine ⟨?_, ?_, ?_, ?_, by norm_num⟩
  · simp [handle_request, hrGo, linkMetrics, candidate_paths, c1sp, c1ctrl, c1g, nS1, nS2,
      nSw1, nSw2, links, findEdge, listMax, Except.map, List.filterMap]
    norm_num
  · simp [links]
  · exact Or.inl (by simp [c1ctrl])
  · simp [findEdge, c1g, nS1, nSw1]

/-- Claim C7 counterexample: for the controller owning only swx, the only
candidate path [s1, sw1] has zero considered links, and handle_request
raises the ValueError of max over an empty sequence instead of
excluding the path without error. -/
theorem c7_zero_considered_links_error :
    handle_request c7sp c7ctrl c7g nSw1 5 = Except.error valueErrorMsg ∧
    (∀ l ∈ links [nS1, nSw1], ¬(l.2 ∈ c7ctrl.switches ∨ l.1 ∈ c7ctrl.switches)) := by
  constructor
  · simp [handle_request, hrGo, linkMetrics, candidate_paths, c7sp, c7ctrl, c7g, nS1, nSw1,
      nSwX, links, findEdge, listMax, List.filterMap]
  · intro l hl
    simp [links] at hl
    subst hl
    simp [c7ctrl, nS1, nSw1, nSwX]

/-- Claim C7 (amended): when every candidate path scores without a lookup
error, a candidate path whose considered-link metric list is empty
(zero considered links, or every considered link oversubscribed) makes
handle_request fail with an error instead of being excluded; and when
every candidate path keeps at least one considered link and none scores
strictly below the threshold 1, handle_request returns none — the
normal demand-dropped outcome, not an error. -/
theorem c7_handle_request_empty_metrics_error_or_none
    (sp : Node → Node → Option (List Node)) (ctrl : LinkBalancerCtrl) (g : Graph)
    (sw : Node) (util : ℚ) :
    ((∀ p ∈ candidate_paths sp ctrl sw, ∃ lm,
        linkMetrics ctrl.switches g util (links p) = Except.ok lm) →
      (∃ p ∈ candidate_paths sp ctrl sw,
        linkMetrics ctrl.switches g util (links p) = Except.ok []) →
      ∃ e, handle_request sp ctrl g sw util = Except.error e) ∧
    ((∀ p ∈ candidate_paths sp ctrl sw, ∃ lm,
        linkMetrics ctrl.switches g util (links p) = Except.ok lm ∧ lm ≠ [] ∧
        ∀ m, listMax lm = some m → 1 ≤ m) →
      handle_request sp ctrl g sw util = Except.ok none) :=
  ⟨fun hall hbad => hrGo_error_of_empty ctrl.switches g util (candidate_paths sp ctrl sw)
      none 1 hall hbad,
   fun h => hrGo_none_of_no_qualifying ctrl.switches g util (candidate_paths sp ctrl sw) h⟩

/-- Witness for C7 at a scenario whose only candidate path scores exactly
the threshold 1. -/
theorem c7_handle_request_empty_metrics_error_or_none_witness :
    handle_request c7wsp c7wctrl c7wg nSw1 10 = Except.ok none := by
  refine (c7_handle_request_empty_metrics_error_or_none c7wsp c7wctrl c7wg nSw1 10).2 ?_
  intro p hp
  have hcp : candidate_paths c7wsp c7wctrl nSw1 = [[nS1, nSw1]] := by
    simp [candidate_paths, c7wsp, c7wctrl, List.filterMap, nS1, nSw1]
  rw [hcp] at hp
  simp at hp
  subst hp
  refine ⟨[1], ?_, by simp, ?_⟩
  · simp [linkMetrics, links, c7wctrl, c7wg, findEdge, nS1, nSw1, Except.map]
    norm_num
  · intro m hm
    simp [listMax] at hm
    subst hm
    exact le_refl 1

/-- Claim C2: starting from a simulation start (empty ledger, distinct
edge keys, every edge between 0 and capacity) with a workload of
nonnegative demand sizes routed along duplicate-free shortest paths,
every state the run loop reaches — after any number of whole timesteps,
and inside a timestep after the free phase and any prefix of that
demand list of that timestep — satisfies 0 ≤ used ≤ capacity on every edge. -/
theorem c2_run_loop_preserves_capacity_bounds (conf : SimConf) (st : SimState)
    (wl : List (List Req))
    (hstart : st.active_flows = [])
    (hkeys : (st.graph.map Prod.fst).Nodup)
    (hrange : ∀ ent ∈ st.graph, 0 ≤ ent.2.used ∧ ent.2.used ≤ ent.2.capacity)
    (hsizes : ∀ reqs ∈ wl, ∀ r ∈ reqs, 0 ≤ r.2.1)
    (hsp : ∀ a b p, conf.sp a b = some p → (links p).Nodup) :
    ∀ (n : ℕ) (st1 : SimState), steps conf 0 st (wl.take n) = Except.ok st1 →
      (∀ ent ∈ st1.graph, 0 ≤ ent.2.used ∧ ent.2.used ≤ ent.2.capacity) ∧
      ∀ (m : ℕ) (st2 : SimState),
        handle_reqs conf (n : ℤ) (free_resources st1 (n : ℤ)) ((wl.getD n []).take m) =
          Except.ok st2 →
        ∀ ent ∈ st2.graph, 0 ≤ ent.2.used ∧ ent.2.used ≤ ent.2.capacity := by
  intro n st1 hsteps
  have hInv0 : Inv st := by
    refine ⟨hkeys, fun ent hm => ⟨(hrange ent hm).1, (hrange ent hm).2, ?_⟩, ?_⟩
    · rw [hstart]
      show (0:ℚ) ≤ ent.2.used
      exact (hrange ent hm).1
    · intro b hb
      rw [hstart] at hb
      cases hb
  have hsz1 : ∀ reqs ∈ wl.take n, ∀ r ∈ reqs, 0 ≤ r.2.1 :=
    fun reqs h => hsizes reqs (List.mem_of_mem_take h)
  have hInv1 : Inv st1 := Inv_steps conf hsp (wl.take n) 0 st st1 hInv0 hsz1 hsteps
  refine ⟨fun ent hm => ⟨(hInv1.2.1 ent hm).1, (hInv1.2.1 ent hm).2.1⟩, ?_⟩
  intro m st2 h2
  have hInvf : Inv (free_resources st1 (n : ℤ)) := Inv_free st1 (n : ℤ) hInv1
  have hszm : ∀ r ∈ (wl.getD n []).take m, 0 ≤ r.2.1 := by
    intro r hr
    have hr2 : r ∈ wl.getD n [] := List.mem_of_mem_take hr
    by_cases hn : n < wl.length
    · have hmem : wl.getD n [] ∈ wl := by
        rw [List.getD_eq_getElem wl [] hn]
        exact List.getElem_mem hn
      exact hsizes _ hmem r hr2
    · rw [List.getD_eq_default wl [] (le_of_not_lt hn)] at hr2
      cases hr2
  have hInv2 : Inv st2 :=
    Inv_handle_reqs conf hsp ((wl.getD n []).take m) (free_resources st1 (n : ℤ)) st2 (n : ℤ)
      hInvf hszm h2
  exact fun ent hm => ⟨(hInv2.2.1 ent hm).1, (hInv2.2.1 ent hm).2.1⟩

/-- Witness for C2: after the single timestep of the c2 scenario the only
edge holds 10 of its 100 capacity, within bounds. -/
theorem c2_run_loop_preserves_capacity_bounds_witness :
    (0:ℚ) ≤ (10:ℚ) ∧ (10:ℚ) ≤ (100:ℚ) := by
  have hsteps : steps c2conf 0 c2st (c2wl.take 1) = Except.ok c2st1 := by
    have hstep : sim_step c2conf c2st 0 [(nSw1, 10, 1)] = Except.ok c2st1 := by
      norm_num [sim_step, handle_reqs, handle_demand, free_resources, lookupBucket, c2conf,
        c2st, c2ctrl, c2sp, handle_request, hrGo, linkMetrics, candidate_paths, links, findEdge,
        listMax, allocate_resources, checkLinks, addOnLinks, updateEdge, bucketAppend, c2st1,
        nS1, nSw1, Except.map, List.filterMap]
    show steps c2conf 0 c2st [[(nSw1, 10, 1)]] = Except.ok c2st1
    simp only [steps, hstep]
  have h := (c2_run_loop_preserves_capacity_bounds c2conf c2st c2wl rfl
    (by simp [c2st])
    (by
      intro ent hm
      simp [c2st] at hm
      subst hm
      norm_num)
    (by
      intro reqs hq r hr
      simp [c2wl] at hq
      subst hq
      simp at hr
      subst hr
      norm_num)
    (by
      intro a b p hp
      simp only [c2conf, c2sp] at hp
      split at hp
      · have h2 : [nS1, nSw1] = p := by injection hp
        subst h2
        simp [links, nS1, nSw1]
      · cases hp)) 1 c2st1 hsteps
  exact h.1 ((nS1, nSw1), ⟨100, 10⟩) (by simp [c2st1])

/-- Claim C6: whenever run returns, it returns one rmse_links value and
one rmse_servers value per timestep, in timestep order: the value at
index t of each sequence is the metric evaluated on the state reached
after the free-then-admit phases of timesteps 0 through t, where each
timestep first frees the expiring flows and then handles its demand
list in order. -/
theorem c6_run_metrics_per_timestep (conf : SimConf) (st : SimState) (wl : List (List Req))
    (l1 l2 : List ℝ) (h : run conf st wl = Except.ok (l1, l2)) :
    l1.length = wl.length ∧ l2.length = wl.length ∧
    ∀ t, t < wl.length →
      ∃ stt, steps conf 0 st (wl.take (t+1)) = Except.ok stt ∧
        l1.getD t 0 = rmse_links stt.graph ∧
        rmse_servers conf.servers stt.graph = Except.ok (l2.getD t 0) :=
  run_from_ok_char conf wl 0 st l1 l2 h

/-- Witness for C6: the one-timestep run scenario completes and yields
one value per metric. -/
theorem c6_run_metrics_per_timestep_witness :
    c6res.1.length = c6wl.length ∧ c6res.2.length = c6wl.length := by
  have hstep : sim_step c6conf c6st0 0 [(nSw1, 10, 1)] = Except.ok c6st1 := by
    norm_num [sim_step, handle_reqs, handle_demand, free_resources, lookupBucket, c6conf,
      c6st0, c6ctrl, c6sp, handle_request, hrGo, linkMetrics, candidate_paths, links, findEdge,
      listMax, allocate_resources, checkLinks, addOnLinks, updateEdge, bucketAppend, c6st1,
      nS1, nSw1, Except.map, List.filterMap]
  have hms : rmse_servers c6conf.servers c6st1.graph =
      Except.ok (Real.sqrt ((sumSqDev [((100:ℚ), (10:ℚ))] : ℚ) : ℝ)) := by
    simp [rmse_servers, serverPairs, outNeighbors, findEdge, c6conf, c6st1, Except.map,
      nS1, nSw1, List.filterMap]
  have hrun : run c6conf c6st0 c6wl = Except.ok (c6res.1, c6res.2) := by
    show run_from c6conf 0 c6st0 [[(nSw1, 10, 1)]] = Except.ok (c6res.1, c6res.2)
    simp only [run_from, hstep, hms]
    rfl
  obtain ⟨h1, h2, _⟩ := c6_run_metrics_per_timestep c6conf c6st0 c6wl c6res.1 c6res.2 hrun
  exact ⟨h1, h2⟩

end CtrlSim
